import Mathlib

set_option maxRecDepth 100000

/-!
# Verification of the AFLMutationFunctions mutation engine

Shallow embedding of the AFL-style mutation library and its havoc driver.
The repository contains two implementations:

* the fixed-width class `CAFLMutationFunctions` (`AFLMutationFunctions.cpp`),
  whose operators work in place on a `uint8_t*` buffer and signal failure via
  the `MUTATION_FAILED` sentinel size, and
* the generic header implementation (`include/AFLMutationFunctions.hh` and
  `include/AFLMutationFunctions/Details.hh`), whose operators work on
  `std::span<std::byte>` values and are tagged size-constant / size-reducing /
  size-increasing through the `Details::Mutation` wrapper.

Buffers are modelled as functions `Nat → Nat` (byte value at each offset);
the random draws of each operator are explicit parameters, constrained in the
theorems to the closed ranges the source passes to
`std::uniform_int_distribution`.  `std::memset` / `std::memmove` are modelled
pointwise; `std::memcpy` is modelled as the forward byte-by-byte copy (its
reference behaviour; on overlapping ranges the call is undefined behaviour in
C++ and the forward copy is what the comment in the source assumes away).
-/

namespace AFLMutation

/-- A byte buffer: the byte stored at each offset. -/
def Buf : Type := Nat → Nat

/-- Write one byte (the `CAlignmentSafeReference<uint8_t>::Set` effect). -/
def bstore (buf : Buf) (i v : Nat) : Buf := fun j => if j = i then v else buf j

/-- `std::memset(buf + dst, v, n)`. -/
def memset (buf : Buf) (dst v n : Nat) : Buf :=
  fun j => if dst ≤ j ∧ j < dst + n then v else buf j

/-- `std::memmove(buf + dst, buf + src, n)`: every moved byte reads the
pre-call contents, which is the guarantee `memmove` gives on overlap. -/
def memmove (buf : Buf) (dst src n : Nat) : Buf :=
  fun j => if dst ≤ j ∧ j < dst + n then buf (src + (j - dst)) else buf j

/-- `std::memcpy(buf + dst, buf + src, n)` as the forward byte-by-byte copy:
byte `k` is copied after bytes `0..k-1`, reading the partially updated buffer.
On non-overlapping ranges this agrees with `memmove`; on overlapping ranges
(`dst < src + n` and `src < dst + n`) the C++ call is undefined behaviour and
this is its canonical reference behaviour. -/
def memcpyFwd (buf : Buf) (dst src : Nat) : Nat → Buf
  | 0 => buf
  | n + 1 =>
    let b := memcpyFwd buf dst src n
    bstore b (dst + n) (b (src + n))

/-- Read `n` consecutive bytes starting at `pos`. -/
def readBytes (buf : Buf) (pos : Nat) : Nat → List Nat
  | 0 => []
  | n + 1 => buf pos :: readBytes buf (pos + 1) n

/-- Write a list of bytes starting at `pos`. -/
def writeBytes (buf : Buf) (pos : Nat) : List Nat → Buf
  | [] => buf
  | b :: bs => writeBytes (bstore buf pos b) (pos + 1) bs

/-- Little-endian byte decomposition of a value into `w` bytes (the in-memory
representation of a `w`-byte unsigned integer on the little-endian hosts the
source targets: it uses the MSVC `_byteswap_*` intrinsics). -/
def toBytesLE : Nat → Nat → List Nat
  | 0, _ => []
  | w + 1, n => n % 256 :: toBytesLE w (n / 256)

/-- Value of a little-endian byte list. -/
def ofBytesLE : List Nat → Nat
  | [] => 0
  | b :: bs => b + 256 * ofBytesLE bs

/-- Two's-complement bit pattern of a signed value of width `w` bytes
(`static_cast` to the unsigned type of the same width). -/
def toUnsigned (w : Nat) (i : Int) : Nat := (i % ((2 : Int) ^ (8 * w))).toNat

/-- `Details::SwapEndian` / the `_byteswap_*` intrinsics: reverse the `w`
bytes of a value. -/
def SwapEndian (w n : Nat) : Nat := ofBytesLE (toBytesLE w n).reverse

/-- `Details::ReinterpretInt`: zero-extend the `w`-byte pattern of a signed
value into a wider integer (the byte representation is unchanged, so the
resulting value is just the pattern). Returned as `Int` so the source's
surrounding `+ 1` / `- 1` arithmetic can be transcribed directly. -/
def ReinterpretIntS (w : Nat) (i : Int) : Int := (toUnsigned w i : Int)

/-- Sign-extending `static_cast<size_t>` of a `w`-byte signed pattern on a
64-bit host (what the `CAFLMutationFunctions` constructor applies to every
catalog entry before storing it in `m_vecInterestingInts`). -/
def signExtendTo64 (w p : Nat) : Nat :=
  if p < 2 ^ (8 * w - 1) then p else p + (2 ^ 64 - 2 ^ (8 * w))

/-- Insert into a sorted list (ascending). -/
def insertSorted (x : Nat) : List Nat → List Nat
  | [] => [x]
  | y :: t => if x ≤ y then x :: y :: t else y :: insertSorted x t

/-- `std::ranges::sort` with `operator<` on `uint64_t`: sort ascending. -/
def sortAsc (l : List Nat) : List Nat := l.foldr insertSorted []

/-- `std::ranges::unique` on a sorted range followed by `erase`: drop
adjacent duplicates. -/
def uniqueAdjacent : List Nat → List Nat
  | [] => []
  | [a] => [a]
  | a :: b :: t => if a = b then uniqueAdjacent (b :: t) else a :: uniqueAdjacent (b :: t)

/-- Boolean ascending-sortedness check (`std::ranges::is_sorted`). -/
def sortedAsc : List Nat → Bool
  | [] => true
  | [_] => true
  | a :: b :: t => decide (a ≤ b) && sortedAsc (b :: t)

/-- Boolean no-duplicates check. -/
def nodupB : List Nat → Bool
  | [] => true
  | a :: t => t.all (fun x => decide (x ≠ a)) && nodupB t

/-! ## The interesting-value catalog of the generic header implementation

`Details::GetInteresting` (Details.hh lines 68-133): four per-width lists of
signed boundary values; each value is inserted together with its byte-swapped
counterpart (`Details::AddValuesAndTheirSwappedEndians`), zero-extended to 64
bits (`ReinterpretInt<uint64_t>`); the combined vector is then sorted and
adjacent duplicates are erased. -/

/-- `pInteresting8Bit` (Details.hh lines 71-80). -/
def pInteresting8Bit : List Int := [-128, -1, 0, 1, 16, 32, 100, 127]

/-- `pInteresting16Bit` (Details.hh lines 83-94). -/
def pInteresting16Bit : List Int :=
  [-1, -32768, ReinterpretIntS 1 (-128) - 1, ReinterpretIntS 1 127 + 1,
   ReinterpretIntS 1 255 + 1, 512, 1000, 1024, 4096, -32768]

/-- `pInteresting32Bit` (Details.hh lines 97-106). -/
def pInteresting32Bit : List Int :=
  [-1, -2147483648, 100663046, ReinterpretIntS 2 (-32768) - 1,
   ReinterpretIntS 2 32767 + 1, ReinterpretIntS 2 65535 + 1, 100663045, 2147483647]

/-- `pInteresting64Bit` (Details.hh lines 109-117). -/
def pInteresting64Bit : List Int :=
  [-1, -9223372036854775808, ReinterpretIntS 4 (-2147483648) - 1,
   ReinterpretIntS 4 2147483647 + 1, 4294967295,
   ReinterpretIntS 4 4294967295 + 1, 9223372036854775807]

/-- `Details::AddValuesAndTheirSwappedEndians`: for every source value of
width `w`, append its zero-extended pattern and the zero-extended pattern of
its byte-swapped version. -/
def AddValuesAndTheirSwappedEndians (w : Nat) (source : List Int) : List Nat :=
  source.flatMap (fun v => [toUnsigned w v, SwapEndian w (toUnsigned w v)])

/-- `Details::GetInteresting`: the combined, sorted, adjacent-deduplicated
catalog of 64-bit interesting values. -/
def GetInteresting : List Nat :=
  uniqueAdjacent (sortAsc
    (AddValuesAndTheirSwappedEndians 1 pInteresting8Bit ++
     AddValuesAndTheirSwappedEndians 2 pInteresting16Bit ++
     AddValuesAndTheirSwappedEndians 4 pInteresting32Bit ++
     AddValuesAndTheirSwappedEndians 8 pInteresting64Bit))

/-- `Details::GetInterestingArray` copies `GetInteresting` into a
`std::array`; the contents are identical. -/
def interestingArray : List Nat := GetInteresting

/-- `Details::MaxIntWithSize` (Details.hh lines 267-281).  Its documentation
and the `static_assert`s in `tests/CompiletimeTests.cpp` take the argument as
a width in BITS: `MaxIntWithSize(9) == 0xffff`, `MaxIntWithSize(18) ==
0xffffffff`. -/
def MaxIntWithSize (w : Nat) : Nat :=
  if w ≤ 8 then 255
  else if w ≤ 16 then 65535
  else if w ≤ 32 then 4294967295
  else 18446744073709551615

/-- The candidate set computed inside the header `InterestingValue`
(AFLMutationFunctions.hh line 42): `std::ranges::upper_bound` of
`MaxIntWithSize(ui8ValueSize)` over the sorted catalog, i.e. the maximal
prefix of entries `≤ MaxIntWithSize w`.  `ui8ValueSize` is the chosen value
width in BYTES (drawn from `[1, min(8, size)]`). -/
def hhCandidates (w : Nat) : List Nat :=
  interestingArray.takeWhile (fun x => decide (x ≤ MaxIntWithSize w))

/-! ## The interesting-value catalog of the fixed-width class

`CAFLMutationFunctions::CAFLMutationFunctions` (AFLMutationFunctions.cpp
lines 76-146): four per-width signed lists; `AddOtherEndian` appends the
byte-swapped version of every 16/32/64-bit entry at the end of its list; all
entries are then pushed into one `std::vector<size_t>` through a
sign-extending `static_cast<size_t>`.  No sorting and no deduplication. -/

/-- `vecInteresting8Bit` (cpp lines 78-88). -/
def vecInteresting8Bit : List Int := [-128, -1, 0, 1, 16, 32, 100, 127]

/-- `vecInteresting16Bit` (cpp lines 90-102); the arithmetic on the
`numeric_limits` constants here is plain `int` arithmetic. -/
def vecInteresting16Bit : List Int :=
  [-32768, -128 - 1, 127 + 1, 255, 255 + 1, 512, 1000, 1024, 4096, -32768]

/-- `vecInteresting32Bit` (cpp lines 104-114). -/
def vecInteresting32Bit : List Int :=
  [-2147483648, 100663046, -32768 - 1, 32767 + 1, 65535, 65535 + 1,
   100663045, 2147483647]

/-- `vecInteresting64Bit` (cpp lines 116-124). -/
def vecInteresting64Bit : List Int :=
  [-9223372036854775808, -2147483648 - 1, 2147483647 + 1, 4294967295,
   4294967295 + 1, 9223372036854775807]

/-- `AddOtherEndian` (cpp lines 60-70): append the byte-swapped pattern of
every current entry at the end of the vector. -/
def AddOtherEndian (w : Nat) (patterns : List Nat) : List Nat :=
  patterns ++ patterns.map (SwapEndian w)

/-- The per-width patterns after `AddOtherEndian`, still at their own width. -/
def cppPatterns16 : List Nat := AddOtherEndian 2 (vecInteresting16Bit.map (toUnsigned 2))

/-- 32-bit patterns after `AddOtherEndian`. -/
def cppPatterns32 : List Nat := AddOtherEndian 4 (vecInteresting32Bit.map (toUnsigned 4))

/-- 64-bit patterns after `AddOtherEndian`. -/
def cppPatterns64 : List Nat := AddOtherEndian 8 (vecInteresting64Bit.map (toUnsigned 8))

/-- `m_vecInterestingInts` (cpp lines 132-140): all entries, sign-extended by
`static_cast<size_t>` to 64 bits, 8-bit entries first. -/
def m_vecInterestingInts : List Nat :=
  (vecInteresting8Bit.map (toUnsigned 1)).map (signExtendTo64 1) ++
  cppPatterns16.map (signExtendTo64 2) ++
  cppPatterns32.map (signExtendTo64 4) ++
  cppPatterns64.map (signExtendTo64 8)

/-- `m_uiIteresting8Bit` (cpp line 143, taken after `AddOtherEndian`). -/
def m_uiIteresting8Bit : Nat := vecInteresting8Bit.length

/-- `m_uiIteresting16Bit` (cpp line 144). -/
def m_uiIteresting16Bit : Nat := cppPatterns16.length

/-- `m_uiIteresting32Bit` (cpp line 145). -/
def m_uiIteresting32Bit : Nat := cppPatterns32.length

/-- `m_uiIteresting64Bit` (cpp line 146). -/
def m_uiIteresting64Bit : Nat := cppPatterns64.length

/-- `CAFLMutationFunctions::GetInterestingValues` (cpp lines 259-273): a
`std::span(...).first(count)` prefix of `m_vecInterestingInts`, where `count`
is the per-width entry count; `w` is `sizeof(T)` in bytes.  Any other width
throws `std::invalid_argument`, modelled by the empty list (the operators
only instantiate `T` at widths 1, 2, 4 and 8). -/
def cppGetInterestingValues (w : Nat) : List Nat :=
  if w = 1 then m_vecInterestingInts.take m_uiIteresting8Bit
  else if w = 2 then m_vecInterestingInts.take m_uiIteresting16Bit
  else if w = 4 then m_vecInterestingInts.take m_uiIteresting32Bit
  else if w = 8 then m_vecInterestingInts.take m_uiIteresting64Bit
  else []

/-! ## The fixed-width operators of `CAFLMutationFunctions`

Each operator is one constructor carrying its random draws (the results of
the `RandomPosition` calls, in source order).  In the class declaration --
which is not under `src/` -- the operators return `MUTATION_FAILED`, per the
spec "a size value guaranteed distinguishable from any valid length"; that
sentinel is modelled as `Option.none` in the returned size. -/

/-- Modelled from the spec: `ARITHMETIC_MAX` is declared in the class header
(absent from `src/`); the spec only says the delta is bounded to a small
magnitude, and no claim depends on its exact value.  AFL's traditional bound
is 35. -/
def ARITHMETIC_MAX : Nat := 35

/-- Modelled from the spec: `MAX_FAILED_MUTATIONS` is declared in the class
header (absent from `src/`); the spec and the claims give the fixed bound of
128 consecutive failures. -/
def MAX_FAILED_MUTATIONS : Nat := 128

/-- One application of a fixed-width operator together with its random
draws, in the order the source draws them. -/
inductive CppApp where
  /-- `FlipBit` (cpp 242-256): byte index, bit index. -/
  | flipBit (idx bit : Nat)
  /-- `InterestingValue<T>` (cpp 284-301): `w = sizeof(T)`, catalog index,
  byte offset of the overwritten `T`. -/
  | interestingValue (w idxI pos : Nat)
  /-- `ArithmeticAdd<T>` (cpp 305-326): `w = sizeof(T)`, delta draw,
  endian-swap coin, byte offset. -/
  | arithmeticAdd (w delta : Nat) (swap : Bool) (pos : Nat)
  /-- `ArithmeticSubstract<T>` (cpp 330-351). -/
  | arithmeticSub (w delta : Nat) (swap : Bool) (pos : Nat)
  /-- `RandomByteReplace` (cpp 354-369): byte index, replacement value. -/
  | randomByteReplace (idx v : Nat)
  /-- `RemoveRandomBlock` (cpp 372-400): block length, block start index. -/
  | removeRandomBlock (del idx : Nat)
  /-- `RandomBlockInsert` (cpp 403-445): inserted length, insert position,
  clone coin (`RandomPosition(0,3)`), clone source index, repeat coin
  (`RandomPosition(0,1)`), sampled byte index, random byte. -/
  | randomBlockInsert (len pos cloneCoin cloneIdx repeatCoin byteIdx randByte : Nat)
  /-- `RandomChunkOverwrite` (cpp 448-479): block length, destination index,
  clone coin, clone source index, byte-source coin, sampled byte index,
  random byte. -/
  | randomChunkOverwrite (len dst cloneCoin src coin2 byteIdx randByte : Nat)
deriving DecidableEq

/-- Apply a fixed-width operator: result buffer and returned size
(`none` = `MUTATION_FAILED`).  Every operator checks its size precondition
before its first write, exactly as in the source. -/
def applyCpp (app : CppApp) (buf : Buf) (size sizeMax : Nat) : Buf × Option Nat :=
  match app with
  | .flipBit idx bit =>
    if size = 0 then (buf, none)
    else (bstore buf idx (((buf idx).xor (1 <<< bit)) % 256), some size)
  | .interestingValue w idxI pos =>
    if size < w then (buf, none)
    else
      let interesting := (cppGetInterestingValues w).getD idxI 0
      (writeBytes buf pos (toBytesLE w (interesting % 2 ^ (8 * w))), some size)
  | .arithmeticAdd w delta swap pos =>
    if size < w then (buf, none)
    else
      let rv := if swap ∧ 2 ≤ w then SwapEndian w delta else delta
      let old := ofBytesLE (readBytes buf pos w)
      (writeBytes buf pos (toBytesLE w ((old + rv) % 2 ^ (8 * w))), some size)
  | .arithmeticSub w delta swap pos =>
    if size < w then (buf, none)
    else
      let rv := if swap ∧ 2 ≤ w then SwapEndian w delta else delta
      let old := ofBytesLE (readBytes buf pos w)
      (writeBytes buf pos
        (toBytesLE w ((old + (2 ^ (8 * w) - rv % 2 ^ (8 * w))) % 2 ^ (8 * w))), some size)
  | .randomByteReplace idx v =>
    if size = 0 then (buf, none)
    else (bstore buf idx v, some size)
  | .removeRandomBlock del idx =>
    if size ≤ 1 then (buf, none)
    else
      let remainder := size - idx - del
      let b1 := memmove buf idx (idx + del) remainder
      (memset b1 (idx + remainder) 0 del, some (size - del))
  | .randomBlockInsert len pos cloneCoin cloneIdx repeatCoin byteIdx randByte =>
    if sizeMax ≤ size then (buf, none)
    else
      let sizeTail := size - pos
      let b1 := memcpyFwd buf (pos + len) pos sizeTail
      let b2 :=
        if cloneCoin ≠ 0 ∧ 0 < size then
          memmove b1 pos cloneIdx len
        else
          let byteRandom := if repeatCoin = 0 ∨ size = 0 then randByte else b1 byteIdx
          memset b1 pos byteRandom len
      (b2, some (size + len))
  | .randomChunkOverwrite len dst cloneCoin src coin2 byteIdx randByte =>
    if size = 0 then (buf, none)
    else
      let b2 :=
        if cloneCoin ≠ 0 then
          memmove buf dst src len
        else
          let byteRandom := if coin2 ≠ 0 then buf byteIdx else randByte
          memset buf dst byteRandom len
      (b2, some size)

/-- The closed ranges the source's `RandomPosition` calls guarantee for each
operator's draws (given the operator got past its own size guard). -/
def cppDrawsOK (app : CppApp) (size sizeMax : Nat) : Prop :=
  match app with
  | .flipBit idx bit => idx < size ∧ bit ≤ 7
  | .interestingValue w idxI pos =>
    idxI < (cppGetInterestingValues w).length ∧ pos + w ≤ size
  | .arithmeticAdd w delta _ pos =>
    1 ≤ delta ∧ delta ≤ ARITHMETIC_MAX ∧ pos + w ≤ size
  | .arithmeticSub w delta _ pos =>
    1 ≤ delta ∧ delta ≤ ARITHMETIC_MAX ∧ pos + w ≤ size
  | .randomByteReplace idx v => idx < size ∧ 1 ≤ v ∧ v ≤ 255
  | .removeRandomBlock del idx => 1 ≤ del ∧ del + 1 ≤ size ∧ idx + del ≤ size
  | .randomBlockInsert len pos cloneCoin cloneIdx repeatCoin byteIdx randByte =>
    1 ≤ len ∧ size + len ≤ sizeMax ∧ pos ≤ size ∧ cloneIdx + len ≤ sizeMax ∧
      cloneCoin ≤ 3 ∧ repeatCoin ≤ 1 ∧ (size ≠ 0 → byteIdx < size) ∧ randByte ≤ 255
  | .randomChunkOverwrite len dst cloneCoin src coin2 byteIdx randByte =>
    1 ≤ len ∧ dst + len ≤ size ∧ src + len ≤ size ∧ cloneCoin ≤ 3 ∧
      coin2 ≤ 1 ∧ byteIdx < size ∧ randByte ≤ 255

instance (app : CppApp) (size sizeMax : Nat) : Decidable (cppDrawsOK app size sizeMax) := by
  unfold cppDrawsOK
  cases app <;> infer_instance

/-! ## The fixed-width havoc catalog and driver -/

/-- The kind of a fixed-width operator, used to mirror the two operator
vectors the constructor builds. -/
inductive CppOpKind where
  | flipBit
  | interestingValue (w : Nat)
  | arithmeticAdd (w : Nat)
  | arithmeticSub (w : Nat)
  | randomByteReplace
  | removeRandomBlock
  | randomBlockInsert
  | randomChunkOverwrite
deriving DecidableEq

/-- Kind of an application. -/
def CppApp.kind : CppApp → CppOpKind
  | .flipBit _ _ => .flipBit
  | .interestingValue w _ _ => .interestingValue w
  | .arithmeticAdd w _ _ _ => .arithmeticAdd w
  | .arithmeticSub w _ _ _ => .arithmeticSub w
  | .randomByteReplace _ _ => .randomByteReplace
  | .removeRandomBlock _ _ => .removeRandomBlock
  | .randomBlockInsert _ _ _ _ _ _ _ => .randomBlockInsert
  | .randomChunkOverwrite _ _ _ _ _ _ _ => .randomChunkOverwrite

/-- `m_vecHavocOperationsConstSize` (cpp lines 150-170), in source order;
`RemoveRandomBlock` appears twice ("Reducing test case size is made more
likely than increasing so that test cases remain reasonably sized"). -/
def m_vecHavocOperationsConstSize : List CppOpKind :=
  [.flipBit,
   .interestingValue 1, .interestingValue 2, .interestingValue 4, .interestingValue 8,
   .arithmeticSub 1, .arithmeticSub 2, .arithmeticSub 4, .arithmeticSub 8,
   .arithmeticAdd 1, .arithmeticAdd 2, .arithmeticAdd 4, .arithmeticAdd 8,
   .randomByteReplace,
   .removeRandomBlock,
   .removeRandomBlock,
   .randomChunkOverwrite]

/-- `m_vecHavocOperationsSizeIncrease` (cpp lines 171-174). -/
def m_vecHavocOperationsSizeIncrease : List CppOpKind :=
  [.randomBlockInsert]

/-- Result of `CAFLMutationFunctions::Havoc`.  `invalid` is the
`std::invalid_argument` thrown by the parameter check (carrying the untouched
buffer and size); `hung` is the `std::exception` thrown after
`MAX_FAILED_MUTATIONS` consecutive operator failures; `outOfPlans` is a
modelling artifact reached only when the supplied list of per-iteration
operator applications is too short. -/
inductive CppOutcome where
  | invalid (buf : Buf) (size : Nat)
  | done (buf : Buf) (size attempts : Nat)
  | hung (buf : Buf) (size attempts : Nat)
  | outOfPlans (buf : Buf) (size attempts : Nat)

/-- `true` on the normal-return outcome. -/
def CppOutcome.isDone : CppOutcome → Bool
  | .done _ _ _ => true
  | _ => false

/-- Number of operator applications performed (successful plus failed). -/
def CppOutcome.attemptCount : CppOutcome → Nat
  | .invalid _ _ => 0
  | .done _ _ a => a
  | .hung _ _ a => a
  | .outOfPlans _ _ a => a

/-- Returned size of the outcome. -/
def CppOutcome.outSize : CppOutcome → Nat
  | .invalid _ s => s
  | .done _ s _ => s
  | .hung _ s _ => s
  | .outOfPlans _ s _ => s

/-- The loop of `CAFLMutationFunctions::Havoc` (cpp lines 196-236).  Each
list element is the operator (with draws) selected for one iteration.
`remaining` counts iterations still to complete (the source's
`i < uiHavocIterations` with `i--` on failure); `errors` is
`uiIterationsWithErrors`; `attempts` counts every invocation.  On failure the
size is restored to `sizeBeforeMutation` and the iteration is not counted;
the 128th consecutive failure throws. -/
def cppHavocLoop (sizeMax : Nat) :
    List CppApp → Buf → Nat → Nat → Nat → Nat → CppOutcome
  | _, buf, s, 0, _, a => .done buf s a
  | [], buf, s, _ + 1, _, a => .outOfPlans buf s a
  | p :: ps, buf, s, n + 1, e, a =>
    let r := applyCpp p buf s sizeMax
    match r.2 with
    | none =>
      if MAX_FAILED_MUTATIONS ≤ e + 1 then .hung r.1 s (a + 1)
      else cppHavocLoop sizeMax ps r.1 s (n + 1) (e + 1) (a + 1)
    | some s2 => cppHavocLoop sizeMax ps r.1 s2 n 0 (a + 1)

/-- `CAFLMutationFunctions::Havoc` (cpp lines 181-239): the parameter check
(`size < 0` is vacuous for an unsigned size) followed by the loop.  `plans`
lists the operator selected (with its draws) for each loop iteration; `N` is
the drawn `StackedHavocOperationsCount()`. -/
def cppHavoc (plans : List CppApp) (buf : Buf) (size sizeMax N : Nat) : CppOutcome :=
  if size > sizeMax ∨ (size = 0 ∧ sizeMax = 0) then .invalid buf size
  else cppHavocLoop sizeMax plans buf size N 0 0

/-! ## The generic header operators

These act on the value span `buffer.subspan(0, size)`, so all offsets below
are absolute buffer offsets. -/

/-- Random draws of `Details::FillSubrangeWithRandomValues` (Details.hh
lines 401-444), in source order: the clone coin (`uniform(0,3)`), the clone
source offset inside the range, the byte-source coin (`uniform(0,1)`), the
sampled byte index and the fresh random byte. -/
structure FillDraws where
  coin4 : Nat
  srcOff : Nat
  coin2 : Nat
  byteIdx : Nat
  randByte : Nat
deriving DecidableEq

/-- `Details::FillSubrangeWithRandomValues` on range `[r0, r0 + rsize)` and
subrange `[b0, b0 + bsize)`.  With probability 3/4 (and a range of more than
one byte) it clones `min rsize bsize` bytes from a random offset of the
range; the source's three position cases (copy right via `copy_backward`,
copy left via `copy`, equal positions) all realise `memmove` semantics.
Otherwise it fills the subrange with one repeated byte, either sampled from
the range or freshly drawn. -/
def FillSubrangeWithRandomValues (buf : Buf) (r0 rsize b0 bsize : Nat)
    (d : FillDraws) : Buf :=
  if 1 < rsize ∧ d.coin4 ≠ 0 then
    memmove buf b0 (r0 + d.srcOff) (min rsize bsize)
  else
    let byteRandom := if 0 < rsize ∧ d.coin2 = 0 then buf (r0 + d.byteIdx) else d.randByte
    memset buf b0 byteRandom bsize

/-- Header `FlipBit` (hh lines 62-70): xor one bit of one byte of the value. -/
def hhFlipBit (buf : Buf) (idx bit : Nat) : Buf :=
  bstore buf idx ((buf idx).xor ((1 <<< bit) % 256))

/-- Header `InterestingValue` (hh lines 32-53): pick a width `w` in bytes,
compute the `upper_bound` candidate prefix against `MaxIntWithSize w`, pick
a candidate and copy its low `w` bytes over a random `w`-byte window. -/
def hhInterestingValue (buf : Buf) (w idxI pos : Nat) : Buf :=
  writeBytes buf pos (toBytesLE w ((hhCandidates w).getD idxI 0))

/-- Header `Arithmetic` (hh lines 79-100): copy `len` bytes of the value
into a zero-initialised 64-bit scratch integer, add or subtract a random
64-bit value, write the low `len` bytes back. -/
def hhArithmetic (isAdd : Bool) (buf : Buf) (len pos delta : Nat) : Buf :=
  let temp := ofBytesLE (readBytes buf pos len)
  let temp2 :=
    if isAdd then (temp + delta) % 2 ^ 64
    else (temp + (2 ^ 64 - delta % 2 ^ 64)) % 2 ^ 64
  writeBytes buf pos (toBytesLE len temp2)

/-- Header `RandomByteReplace` (hh lines 109-118): overwrite one byte with a
value in `[1, 255]`. -/
def hhRandomByteReplace (buf : Buf) (idx v : Nat) : Buf := bstore buf idx v

/-- Header `RemoveRandomBlock` (hh lines 127-149): copy the bytes after the
removed block `[start, start + len)` down to `start`, zero-fill from the old
block end `start + len` to the old value end, and return the value size
`s - len`. -/
def hhRemoveRandomBlock (buf : Buf) (s start len : Nat) : Buf × Nat :=
  let b1 := memmove buf start (start + len) (s - (start + len))
  let b2 := memset b1 (start + len) 0 (s - (start + len))
  (b2, start + (s - (start + len)))

/-- Header `RandomBlockInsert` (hh lines 158-188): shift the value tail
`[pos, sizeValue)` right by `len` via `copy_backward` (correct overlapping
move semantics), then fill the opened block `[pos, pos + len)` with
`FillSubrangeWithRandomValues` over the value range `[0, sizeValue)`. -/
def hhRandomBlockInsert (buf : Buf) (sizeValue len pos : Nat) (d : FillDraws) :
    Buf × Nat :=
  let b1 := memmove buf (pos + len) pos (sizeValue - pos)
  let b2 := FillSubrangeWithRandomValues b1 0 sizeValue pos len d
  (b2, sizeValue + len)

/-- Header `RandomChunkOverwrite` (hh lines 193-204): fill a random
subrange of the value with `FillSubrangeWithRandomValues`. -/
def hhRandomChunkOverwrite (buf : Buf) (s len off : Nat) (d : FillDraws) : Buf :=
  FillSubrangeWithRandomValues buf 0 s off len d

/-- One application of a header operator together with its draws. -/
inductive HHApp where
  | flipBit (idx bit : Nat)
  | interestingValue (w idxI pos : Nat)
  | arithmetic (isAdd : Bool) (len pos delta : Nat)
  | randomByteReplace (idx v : Nat)
  | removeRandomBlock (start len : Nat)
  | randomBlockInsert (len pos : Nat) (d : FillDraws)
  | randomChunkOverwrite (len off : Nat) (d : FillDraws)
deriving DecidableEq

/-- Apply a header operator through its `Details::Mutation` wrapper: a
size-constant operator mutates the value span and the wrapper returns that
span unchanged (size `s`); the size-reducing and size-increasing operators
return their own new size. -/
def applyHH (app : HHApp) (buf : Buf) (s : Nat) : Buf × Nat :=
  match app with
  | .flipBit idx bit => (hhFlipBit buf idx bit, s)
  | .interestingValue w idxI pos => (hhInterestingValue buf w idxI pos, s)
  | .arithmetic isAdd len pos delta => (hhArithmetic isAdd buf len pos delta, s)
  | .randomByteReplace idx v => (hhRandomByteReplace buf idx v, s)
  | .removeRandomBlock start len => hhRemoveRandomBlock buf s start len
  | .randomBlockInsert len pos d => hhRandomBlockInsert buf s len pos d
  | .randomChunkOverwrite len off d => (hhRandomChunkOverwrite buf s len off d, s)

/-! ## The generic header havoc catalog and driver -/

/-- The tag a header operator receives from the `Details::Mutation`
constructor overloads: the constructor selected by the operator's signature
fixes `m_mutationtype`. -/
inductive HHMut where
  | flipBit
  | interestingValue
  | arithmeticAdd
  | arithmeticSub
  | randomByteReplace
  | removeRandomBlock
  | randomBlockInsert
  | randomChunkOverwrite
deriving DecidableEq

/-- `Mutation::IsIncreasing`: only `RandomBlockInsert` matches the
`Increasing` signature concept. -/
def HHMut.IsIncreasing : HHMut → Bool
  | .randomBlockInsert => true
  | _ => false

/-- `Mutation::IsReducing`: only `RemoveRandomBlock` matches the `Reducing`
signature concept. -/
def HHMut.IsReducing : HHMut → Bool
  | .removeRandomBlock => true
  | _ => false

/-- `Mutation::IsConstant`. -/
def HHMut.IsConstant (m : HHMut) : Bool := !m.IsIncreasing && !m.IsReducing

/-- The tag of an application. -/
def kindOfHH : HHApp → HHMut
  | .flipBit _ _ => .flipBit
  | .interestingValue _ _ _ => .interestingValue
  | .arithmetic true _ _ _ => .arithmeticAdd
  | .arithmetic false _ _ _ => .arithmeticSub
  | .randomByteReplace _ _ => .randomByteReplace
  | .removeRandomBlock _ _ => .removeRandomBlock
  | .randomBlockInsert _ _ _ => .randomBlockInsert
  | .randomChunkOverwrite _ _ _ => .randomChunkOverwrite

/-- `GetMutationFunctions` (hh lines 207-222): the array of eight wrapped
mutations, in source order (`RandomByteReplace` is listed twice;
`RandomChunkOverwrite` is not in the catalog). -/
def hhMutations : List HHMut :=
  [.flipBit, .interestingValue, .arithmeticAdd, .arithmeticSub,
   .randomByteReplace, .removeRandomBlock, .randomBlockInsert,
   .randomByteReplace]

/-- `Details::Ranges::FilterMutations` (Details.hh lines 348-372): drop
non-increasing mutations when the value is empty, drop non-reducing
mutations when the value exceeds the buffer, drop increasing mutations when
there is no spare capacity. -/
def FilterMutations (mutations : List HHMut) (sizeBuffer sizeValue : Nat) :
    List HHMut :=
  let bCanIncrease := decide (sizeBuffer > sizeValue)
  let bMustIncrease := decide (sizeValue = 0)
  let bMustReduce := decide (sizeBuffer < sizeValue)
  ((mutations.filter (fun m => !bMustIncrease || m.IsIncreasing)).filter
      (fun m => !bMustReduce || m.IsReducing)).filter
    (fun m => bCanIncrease || !m.IsIncreasing)

/-- One iteration plan of the header `Havoc`: the index drawn by
`SelectRandom` over the filtered mutation range, and the operator
application itself (which must be of the selected kind). -/
structure HHPlan where
  opIndex : Nat
  app : HHApp
deriving DecidableEq

/-- Result of the header `Havoc`.  It has no error path at all: `stuck`
marks the undefined behaviour of selecting from an empty filtered range (or
a plan that does not match the selected mutation -- a modelling artifact),
and `outOfPlans` marks an exhausted plan list. -/
inductive HHOutcome where
  | done (buf : Buf) (size : Nat)
  | stuck (buf : Buf) (size : Nat)
  | outOfPlans (buf : Buf) (size : Nat)

/-- `true` on normal completion. -/
def HHOutcome.isDone : HHOutcome → Bool
  | .done _ _ => true
  | _ => false

/-- Final value size of the outcome. -/
def HHOutcome.outSize : HHOutcome → Nat
  | .done _ s => s
  | .stuck _ s => s
  | .outOfPlans _ s => s

/-- Final buffer of the outcome. -/
def HHOutcome.outBuf : HHOutcome → Buf
  | .done b _ => b
  | .stuck b _ => b
  | .outOfPlans b _ => b

/-- The loop of the header `Havoc` (hh lines 243-252): each iteration
filters the mutation array by the current sizes, selects one mutation and
applies it, updating the value span. -/
def hhHavocLoop (cap : Nat) : List HHPlan → Buf → Nat → Nat → HHOutcome
  | _, buf, s, 0 => .done buf s
  | [], buf, s, _ + 1 => .outOfPlans buf s
  | p :: ps, buf, s, n + 1 =>
    match (FilterMutations hhMutations cap s).get? p.opIndex with
    | none => .stuck buf s
    | some m =>
      if m = kindOfHH p.app then
        let r := applyHH p.app buf s
        hhHavocLoop cap ps r.1 r.2 n
      else .stuck buf s

/-- The header `Havoc` (hh lines 227-255): NO parameter validation -- the
requested value size is clamped to the buffer size (`std::min`, line 234)
and the loop runs `N` iterations. -/
def hhHavoc (plans : List HHPlan) (buf : Buf) (cap sizeValue N : Nat) : HHOutcome :=
  hhHavocLoop cap plans buf (min sizeValue cap) N

/-- Draw ranges for `FillSubrangeWithRandomValues` over range size `rsize`
and subrange size `bsize`. -/
def fillDrawsOK (d : FillDraws) (rsize bsize : Nat) : Prop :=
  d.coin4 ≤ 3 ∧ d.srcOff + min rsize bsize ≤ rsize ∧ d.coin2 ≤ 1 ∧
    (rsize ≠ 0 → d.byteIdx < rsize) ∧ d.randByte ≤ 255

instance (d : FillDraws) (rsize bsize : Nat) : Decidable (fillDrawsOK d rsize bsize) := by
  unfold fillDrawsOK
  infer_instance

/-- The closed ranges the header operators' `uniform_int_distribution`
draws guarantee, for a value of size `s` inside a buffer of size `cap`. -/
def hhDrawsOK (app : HHApp) (cap s : Nat) : Prop :=
  match app with
  | .flipBit idx bit => idx < s ∧ bit ≤ 7
  | .interestingValue w idxI pos =>
    1 ≤ w ∧ w ≤ min 8 s ∧ idxI < (hhCandidates w).length ∧ pos + w ≤ s
  | .arithmetic _ len pos delta =>
    1 ≤ len ∧ len ≤ min 8 s ∧ pos + len ≤ s ∧ delta < 2 ^ 64
  | .randomByteReplace idx v => idx < s ∧ 1 ≤ v ∧ v ≤ 255
  | .removeRandomBlock start len => start < s ∧ 1 ≤ len ∧ start + len ≤ s
  | .randomBlockInsert len pos d =>
    1 ≤ len ∧ s + len ≤ cap ∧ pos ≤ s ∧ fillDrawsOK d s len
  | .randomChunkOverwrite len off d =>
    1 ≤ len ∧ len ≤ s ∧ off + len ≤ s ∧ fillDrawsOK d s len

instance (app : HHApp) (cap s : Nat) : Decidable (hhDrawsOK app cap s) := by
  unfold hhDrawsOK
  cases app <;> infer_instance

/-! ## Frame lemmas for the memory primitives -/

theorem bstore_ne (buf : Buf) (i v j : Nat) (h : j ≠ i) : bstore buf i v j = buf j := by
  simp [bstore, h]

theorem memset_in (buf : Buf) (dst v n j : Nat) (h : dst ≤ j ∧ j < dst + n) :
    memset buf dst v n j = v := by
  simp [memset, h]

theorem memset_out (buf : Buf) (dst v n j : Nat) (h : j < dst ∨ dst + n ≤ j) :
    memset buf dst v n j = buf j := by
  simp only [memset]
  rw [if_neg]
  omega

theorem memmove_in (buf : Buf) (dst src n j : Nat) (h : dst ≤ j ∧ j < dst + n) :
    memmove buf dst src n j = buf (src + (j - dst)) := by
  simp [memmove, h]

theorem memmove_out (buf : Buf) (dst src n j : Nat) (h : j < dst ∨ dst + n ≤ j) :
    memmove buf dst src n j = buf j := by
  simp only [memmove]
  rw [if_neg]
  omega

theorem memcpyFwd_out (buf : Buf) (dst src n j : Nat) (h : j < dst ∨ dst + n ≤ j) :
    memcpyFwd buf dst src n j = buf j := by
  induction n with
  | zero => rfl
  | succ n ih =>
    simp only [memcpyFwd]
    rw [bstore_ne _ _ _ _ (by omega)]
    exact ih (by omega)

theorem writeBytes_out (l : List Nat) (buf : Buf) (pos j : Nat)
    (h : j < pos ∨ pos + l.length ≤ j) : writeBytes buf pos l j = buf j := by
  induction l generalizing buf pos with
  | nil => rfl
  | cons b bs ih =>
    simp only [writeBytes]
    rw [ih _ _ (by simp at h ⊢; omega)]
    exact bstore_ne _ _ _ _ (by simp at h; omega)

theorem toBytesLE_length (w n : Nat) : (toBytesLE w n).length = w := by
  induction w generalizing n with
  | zero => rfl
  | succ w ih => simp [toBytesLE, ih]

theorem fillSubrange_out (buf : Buf) (r0 rsize b0 bsize : Nat) (d : FillDraws)
    (j : Nat) (h : j < b0 ∨ b0 + bsize ≤ j) :
    FillSubrangeWithRandomValues buf r0 rsize b0 bsize d j = buf j := by
  unfold FillSubrangeWithRandomValues
  split
  · exact memmove_out _ _ _ _ _ (by have := Nat.min_le_right rsize bsize; omega)
  · exact memset_out _ _ _ _ _ (by omega)

/-! ## Concrete buffers used by witnesses and counterexamples -/

/-- The all-zero buffer. -/
def bufZero : Buf := fun _ => 0

/-- The buffer whose byte at offset `j` is `j + 1`. -/
def bufSeq : Buf := fun j => j + 1

/-- The buffer holding `[10, 20]` followed by zeros. -/
def bufTwo : Buf := fun j => if j = 0 then 10 else if j = 1 then 20 else 0

/-- The all-7 buffer. -/
def bufSeven : Buf := fun _ => 7

/-! ## Claim theorems -/

/-- The fixed-width `RemoveRandomBlock` behaves as specified: it removes a
block of `removedLength ∈ [1, size-1]` (never the whole value), left-shifts
the bytes after the block so the new value is the old prefix before the
block followed by the old bytes after the block, zero-fills exactly the
vacated tail `[newSize, size)` (bytes at and beyond `size` are untouched),
and returns `newSize = size - removedLength`.  The draw hypotheses are the
ranges of the source's `RandomPosition(1, size-1)` and
`ChooseIndexOfRandomBlock` calls.  The header implementation does NOT
satisfy this: see the C2 theorem below. -/
theorem cppRemoveRandomBlock_correct (buf : Buf) (size del idx sizeMax : Nat)
    (b : Buf) (n : Nat)
    (hsize : 2 ≤ size) (hdel1 : 1 ≤ del) (hdel2 : del ≤ size - 1)
    (hidx : idx + del ≤ size)
    (heq : applyCpp (.removeRandomBlock del idx) buf size sizeMax = (b, some n)) :
    n = size - del ∧ 1 ≤ n ∧
    (∀ j, j < idx → b j = buf j) ∧
    (∀ j, idx ≤ j → j < n → b j = buf (j + del)) ∧
    (∀ j, n ≤ j → j < size → b j = 0) ∧
    (∀ j, size ≤ j → b j = buf j) := by
  simp only [applyCpp] at heq
  rw [if_neg (by omega)] at heq
  simp only [Prod.mk.injEq, Option.some.injEq] at heq
  obtain ⟨hb, hn⟩ := heq
  subst hb hn
  refine ⟨rfl, by omega, ?_, ?_, ?_, ?_⟩
  · intro j hj
    rw [memset_out _ _ _ _ _ (by omega), memmove_out _ _ _ _ _ (by omega)]
  · intro j hj1 hj2
    rw [memset_out _ _ _ _ _ (by omega), memmove_in _ _ _ _ _ (by omega)]
    congr 1
    omega
  · intro j hj1 hj2
    exact memset_in _ _ _ _ _ (by omega)
  · intro j hj
    rw [memset_out _ _ _ _ _ (by omega), memmove_out _ _ _ _ _ (by omega)]

/-- Instance check of `cppRemoveRandomBlock_correct`: removing the 1-byte
block at index 1 of the 3-byte value `[1, 2, 3]` yields `[1, 3, 0]` with new
size 2. -/
theorem cppRemoveRandomBlock_correct_example :
    (applyCpp (CppApp.removeRandomBlock 1 1) bufSeq 3 3).1 1 = bufSeq 2 ∧
    (applyCpp (CppApp.removeRandomBlock 1 1) bufSeq 3 3).1 2 = 0 := by
  have h := cppRemoveRandomBlock_correct bufSeq 3 1 1 3
    ((applyCpp (CppApp.removeRandomBlock 1 1) bufSeq 3 3).1) 2
    (by decide) (by decide) (by decide) (by decide) rfl
  exact ⟨h.2.2.2.1 1 (by decide) (by decide), h.2.2.2.2.1 2 (by decide) (by decide)⟩

/-- C2 (code bug): the header `RemoveRandomBlock` (hh lines 127-149)
violates the claim on legal draws.  It zero-fills the subrange from the OLD
block end, `[start + len, size)`, after the left shift -- not the vacated
tail `[newSize, size)` -- clobbering the shifted bytes whenever they extend
past `start + len`.  On the value `[1, 2, 3, 4]` (size 4) with block start 0
and removed length 1 the result value is `[2, 0, 0]`, where the claim (and
the fixed-width implementation, proved in `cppRemoveRandomBlock_correct`)
requires `[2, 3, 4]`: byte 1 of the result is 0, not the pre-call byte 3.
Its end draw `uniform(1, size - start)` also permits removing the whole
value: start 0 with length 4 is a legal draw and returns `newSize = 0`,
against `removedLength ∈ [1, size-1]`. -/
theorem C2_remove_zero_fill_bug_eval :
    hhDrawsOK (HHApp.removeRandomBlock 0 1) 4 4 ∧
    (applyHH (HHApp.removeRandomBlock 0 1) bufSeq 4).2 = 3 ∧
    (applyHH (HHApp.removeRandomBlock 0 1) bufSeq 4).1 0 = 2 ∧
    (applyHH (HHApp.removeRandomBlock 0 1) bufSeq 4).1 1 = 0 ∧
    (applyHH (HHApp.removeRandomBlock 0 1) bufSeq 4).1 2 = 0 ∧
    bufSeq 2 = 3 ∧ bufSeq 3 = 4 ∧
    ¬(applyHH (HHApp.removeRandomBlock 0 1) bufSeq 4).1 1 = bufSeq 2 ∧
    hhDrawsOK (HHApp.removeRandomBlock 0 4) 4 4 ∧
    (applyHH (HHApp.removeRandomBlock 0 4) bufSeq 4).2 = 0 := by
  decide

/-- C7 counterexample: `RandomByteReplace` draws its replacement from
`[1, 255]` but writes it with plain assignment, so when the drawn value (7,
a legal draw) equals the byte's old value (7) the byte does NOT differ from
its value before the call. -/
theorem C7_byte_replace_counterexample :
    1 ≤ 7 ∧ 7 ≤ 255 ∧ bufSeven 0 = 7 ∧
    (applyCpp (CppApp.randomByteReplace 0 7) bufSeven 1 5).2 = some 1 ∧
    (applyCpp (CppApp.randomByteReplace 0 7) bufSeven 1 5).1 0 = bufSeven 0 := by
  decide

/-- C7 amended: `RandomByteReplace` overwrites the selected byte with the
drawn value `v ∈ [1, 255]`; the byte's new value differs from its old value
unless the old value equals the drawn replacement -- in particular a zero
byte always changes.  Size is preserved. -/
theorem C7_byte_replace_amended (buf : Buf) (size sizeMax idx v : Nat)
    (b : Buf) (n : Nat)
    (hsize : 1 ≤ size) (_hidx : idx < size) (hv1 : 1 ≤ v) (hv2 : v ≤ 255)
    (heq : applyCpp (.randomByteReplace idx v) buf size sizeMax = (b, some n)) :
    n = size ∧ b idx = v ∧ 1 ≤ b idx ∧ b idx ≤ 255 ∧
    (buf idx = 0 → b idx ≠ buf idx) := by
  simp only [applyCpp] at heq
  rw [if_neg (by omega)] at heq
  simp only [Prod.mk.injEq, Option.some.injEq] at heq
  obtain ⟨hb, hn⟩ := heq
  subst hb hn
  have hidxv : bstore buf idx v idx = v := by simp [bstore]
  exact ⟨rfl, hidxv, by omega, by omega, fun h0 => by omega⟩

/-- Witness for C7: replacing byte 0 of a zero buffer with the draw 5
changes it. -/
theorem C7_byte_replace_amended_witness :
    (applyCpp (CppApp.randomByteReplace 0 5) bufZero 1 1).1 0 = 5 ∧
    (applyCpp (CppApp.randomByteReplace 0 5) bufZero 1 1).1 0 ≠ bufZero 0 := by
  have h := C7_byte_replace_amended bufZero 1 1 0 5
    ((applyCpp (CppApp.randomByteReplace 0 5) bufZero 1 1).1) 1
    (by decide) (by decide) (by decide) (by decide) rfl
  exact ⟨h.2.1, h.2.2.2.2 rfl⟩

/-- C9 (code bug): `RandomBlockInsert` in the fixed-width implementation
shifts the tail with `std::memcpy` whose destination overlaps its source
whenever the tail is longer than the inserted block (undefined behaviour;
modelled as the forward byte copy).  Inserting 1 byte at offset 0 of the
2-byte value `[10, 20]` in a capacity-3 buffer (forced draw: length 1; clone
branch, source index 2) succeeds with new size 3, but the byte immediately
after the inserted block's first tail byte holds 10, not the pre-call byte
20 that the claim (and the header implementation's `copy_backward`) require
to reappear there. -/
theorem C9_block_insert_overlap_eval :
    (applyCpp (CppApp.randomBlockInsert 1 0 1 2 0 0 0) bufTwo 2 3).2 = some 3 ∧
    bufTwo 0 = 10 ∧ bufTwo 1 = 20 ∧
    (applyCpp (CppApp.randomBlockInsert 1 0 1 2 0 0 0) bufTwo 2 3).1 1 = 10 ∧
    (applyCpp (CppApp.randomBlockInsert 1 0 1 2 0 0 0) bufTwo 2 3).1 2 = 10 ∧
    ¬(applyCpp (CppApp.randomBlockInsert 1 0 1 2 0 0 0) bufTwo 2 3).1 2 = bufTwo 1 := by
  decide

/-- C3 (code bug): the header `InterestingValue` passes its value width in
BYTES (`ui8ValueSize ∈ [1, 8]`) to `Details::MaxIntWithSize`, whose
documentation and `static_assert`s take the width in BITS.  For width 2
bytes the upper bound is therefore 255 instead of 65535, and the catalog
entry 4096 (`1 << 12`), although `≤ 0xFFFF`, is NOT in the candidate set the
lookup returns. -/
theorem C3_width_lookup_bug_eval :
    4096 ∈ interestingArray ∧ 4096 ≤ 2 ^ (8 * 2) - 1 ∧
    MaxIntWithSize 2 = 255 ∧ ¬4096 ∈ hhCandidates 2 := by
  decide

/-- C8 counterexample: the catalog the fixed-width class builds at
initialization (`m_vecInterestingInts`) is neither sorted ascending nor free
of duplicates (the constructor never sorts or deduplicates, and e.g. the
16-bit source list contains `int16_t` min twice). -/
theorem C8_catalog_counterexample :
    sortedAsc m_vecInterestingInts = false ∧ nodupB m_vecInterestingInts = false := by
  decide

/-- C8 amended: the header catalog `Details::GetInteresting` is sorted
ascending, duplicate-free and contains 0, 0xFF, 0xFFFF and 0xFFFFFFFF; the
fixed-width class catalog `m_vecInterestingInts` also contains those four
values but is neither sorted nor duplicate-free. -/
theorem C8_catalog_amended :
    sortedAsc GetInteresting = true ∧ nodupB GetInteresting = true ∧
    0 ∈ GetInteresting ∧ 255 ∈ GetInteresting ∧
    65535 ∈ GetInteresting ∧ 4294967295 ∈ GetInteresting ∧
    0 ∈ m_vecInterestingInts ∧ 255 ∈ m_vecInterestingInts ∧
    65535 ∈ m_vecInterestingInts ∧ 4294967295 ∈ m_vecInterestingInts := by
  decide

/-- C1: every operator application that does not signal failure, on a value
of size `size ≤ sizeMax` with draws in the source's ranges, returns a size
`≤ sizeMax` (and trivially `≥ 0`, sizes being `Nat`) and writes no byte at
any offset `≥ sizeMax` -- i.e. all written bytes lie in `[0, sizeMax)`.
First conjunct: the fixed-width operators (failure = `none`); second
conjunct: the header operators applied through their `Mutation` wrapper. -/
theorem C1_mutation_bounds :
    (∀ (app : CppApp) (buf : Buf) (size sizeMax : Nat) (b : Buf) (n : Nat),
      size ≤ sizeMax → cppDrawsOK app size sizeMax →
      applyCpp app buf size sizeMax = (b, some n) →
      n ≤ sizeMax ∧ ∀ j, sizeMax ≤ j → b j = buf j) ∧
    (∀ (app : HHApp) (buf : Buf) (cap s : Nat),
      s ≤ cap → hhDrawsOK app cap s →
      (applyHH app buf s).2 ≤ cap ∧ ∀ j, cap ≤ j → (applyHH app buf s).1 j = buf j) := by
  constructor
  · intro app buf size sizeMax b n hsz hdraw heq
    cases app with
    | flipBit idx bit =>
      simp only [cppDrawsOK] at hdraw
      simp only [applyCpp] at heq
      rw [if_neg (by omega)] at heq
      simp only [Prod.mk.injEq, Option.some.injEq] at heq
      obtain ⟨hb, hn⟩ := heq
      subst hb hn
      exact ⟨by omega, fun j hj => bstore_ne _ _ _ _ (by omega)⟩
    | interestingValue w idxI pos =>
      simp only [cppDrawsOK] at hdraw
      simp only [applyCpp] at heq
      rw [if_neg (by omega)] at heq
      simp only [Prod.mk.injEq, Option.some.injEq] at heq
      obtain ⟨hb, hn⟩ := heq
      subst hb hn
      exact ⟨by omega, fun j hj =>
        writeBytes_out _ _ _ _ (by rw [toBytesLE_length]; omega)⟩
    | arithmeticAdd w delta swap pos =>
      simp only [cppDrawsOK] at hdraw
      simp only [applyCpp] at heq
      rw [if_neg (by omega)] at heq
      simp only [Prod.mk.injEq, Option.some.injEq] at heq
      obtain ⟨hb, hn⟩ := heq
      subst hb hn
      exact ⟨by omega, fun j hj =>
        writeBytes_out _ _ _ _ (by rw [toBytesLE_length]; omega)⟩
    | arithmeticSub w delta swap pos =>
      simp only [cppDrawsOK] at hdraw
      simp only [applyCpp] at heq
      rw [if_neg (by omega)] at heq
      simp only [Prod.mk.injEq, Option.some.injEq] at heq
      obtain ⟨hb, hn⟩ := heq
      subst hb hn
      exact ⟨by omega, fun j hj =>
        writeBytes_out _ _ _ _ (by rw [toBytesLE_length]; omega)⟩
    | randomByteReplace idx v =>
      simp only [cppDrawsOK] at hdraw
      simp only [applyCpp] at heq
      rw [if_neg (by omega)] at heq
      simp only [Prod.mk.injEq, Option.some.injEq] at heq
      obtain ⟨hb, hn⟩ := heq
      subst hb hn
      exact ⟨by omega, fun j hj => bstore_ne _ _ _ _ (by omega)⟩
    | removeRandomBlock del idx =>
      simp only [cppDrawsOK] at hdraw
      simp only [applyCpp] at heq
      rw [if_neg (by omega)] at heq
      simp only [Prod.mk.injEq, Option.some.injEq] at heq
      obtain ⟨hb, hn⟩ := heq
      subst hb hn
      refine ⟨by omega, fun j hj => ?_⟩
      rw [memset_out _ _ _ _ _ (by omega)]
      exact memmove_out _ _ _ _ _ (by omega)
    | randomBlockInsert len pos cloneCoin cloneIdx repeatCoin byteIdx randByte =>
      simp only [cppDrawsOK] at hdraw
      obtain ⟨hl, hsm, hp, hc, _⟩ := hdraw
      simp only [applyCpp] at heq
      rw [if_neg (by omega)] at heq
      simp only [Prod.mk.injEq, Option.some.injEq] at heq
      obtain ⟨hb, hn⟩ := heq
      subst hb hn
      refine ⟨by omega, fun j hj => ?_⟩
      split
      · rw [memmove_out _ _ _ _ _ (by omega)]
        exact memcpyFwd_out _ _ _ _ _ (by omega)
      · rw [memset_out _ _ _ _ _ (by omega)]
        exact memcpyFwd_out _ _ _ _ _ (by omega)
    | randomChunkOverwrite len dst cloneCoin src coin2 byteIdx randByte =>
      simp only [cppDrawsOK] at hdraw
      simp only [applyCpp] at heq
      rw [if_neg (by omega)] at heq
      simp only [Prod.mk.injEq, Option.some.injEq] at heq
      obtain ⟨hb, hn⟩ := heq
      subst hb hn
      refine ⟨by omega, fun j hj => ?_⟩
      split
      · exact memmove_out _ _ _ _ _ (by omega)
      · exact memset_out _ _ _ _ _ (by omega)
  · intro app buf cap s hsz hdraw
    cases app with
    | flipBit idx bit =>
      simp only [hhDrawsOK] at hdraw
      simp only [applyHH, hhFlipBit]
      exact ⟨hsz, fun j hj => bstore_ne _ _ _ _ (by omega)⟩
    | interestingValue w idxI pos =>
      simp only [hhDrawsOK] at hdraw
      simp only [applyHH, hhInterestingValue]
      exact ⟨hsz, fun j hj =>
        writeBytes_out _ _ _ _ (by rw [toBytesLE_length]; omega)⟩
    | arithmetic isAdd len pos delta =>
      simp only [hhDrawsOK] at hdraw
      simp only [applyHH, hhArithmetic]
      exact ⟨hsz, fun j hj =>
        writeBytes_out _ _ _ _ (by rw [toBytesLE_length]; omega)⟩
    | randomByteReplace idx v =>
      simp only [hhDrawsOK] at hdraw
      simp only [applyHH, hhRandomByteReplace]
      exact ⟨hsz, fun j hj => bstore_ne _ _ _ _ (by omega)⟩
    | removeRandomBlock start len =>
      simp only [hhDrawsOK] at hdraw
      simp only [applyHH, hhRemoveRandomBlock]
      refine ⟨by omega, fun j hj => ?_⟩
      rw [memset_out _ _ _ _ _ (by omega)]
      exact memmove_out _ _ _ _ _ (by omega)
    | randomBlockInsert len pos d =>
      simp only [hhDrawsOK] at hdraw
      simp only [applyHH, hhRandomBlockInsert]
      refine ⟨by omega, fun j hj => ?_⟩
      rw [fillSubrange_out _ _ _ _ _ _ _ (by omega)]
      exact memmove_out _ _ _ _ _ (by omega)
    | randomChunkOverwrite len off d =>
      simp only [hhDrawsOK] at hdraw
      simp only [applyHH, hhRandomChunkOverwrite]
      exact ⟨hsz, fun j hj => fillSubrange_out _ _ _ _ _ _ _ (by omega)⟩

/-- Witness for C1: flipping bit 0 of byte 0 of a 1-byte value in a 2-byte
buffer returns size 1 ≤ 2 and leaves the byte at offset 5 untouched. -/
theorem C1_mutation_bounds_witness :
    1 ≤ 2 ∧ (applyCpp (CppApp.flipBit 0 0) bufZero 1 2).1 5 = bufZero 5 := by
  have h := C1_mutation_bounds.1 (CppApp.flipBit 0 0) bufZero 1 2
    ((applyCpp (CppApp.flipBit 0 0) bufZero 1 2).1) 1
    (by decide) (by decide) rfl
  exact ⟨h.1, h.2 5 (by decide)⟩

/-- C4 counterexample: the fixed-width class declares its operator
categories through two vectors, and `m_vecHavocOperationsConstSize`
("const size") contains `RemoveRandomBlock`, which on the 2-byte value
`[10, 20]` (legal draws: length 1, index 0) succeeds with `newSize = 1 ≠ 2`:
an operator listed as size-preserving does not return `newSize == size`. -/
theorem C4_const_size_list_counterexample :
    CppOpKind.removeRandomBlock ∈ m_vecHavocOperationsConstSize ∧
    (CppApp.removeRandomBlock 1 0).kind = CppOpKind.removeRandomBlock ∧
    (applyCpp (CppApp.removeRandomBlock 1 0) bufTwo 2 3).2 = some 1 ∧
    ¬(1 = 2) := by
  decide

/-- C4 amended: in the fixed-width class, every operator in the
size-increase vector returns `size < newSize ≤ sizeMax` on success, and
every operator in the "const size" vector except `RemoveRandomBlock`
(deliberately listed there, twice, to bias havoc toward shrinking) returns
`newSize = size`; `RemoveRandomBlock` returns `newSize < size`.  In the
generic header, the `Mutation` tag of every catalog operator matches its
effect exactly: constant tags preserve the size, the reducing tag shrinks
it, and the increasing tag grows it within the buffer capacity. -/
theorem C4_category_fidelity_amended :
    (∀ (app : CppApp) (buf : Buf) (size sizeMax : Nat) (b : Buf) (n : Nat),
      size ≤ sizeMax → cppDrawsOK app size sizeMax →
      app.kind ∈ m_vecHavocOperationsSizeIncrease →
      applyCpp app buf size sizeMax = (b, some n) → size < n ∧ n ≤ sizeMax) ∧
    (∀ (app : CppApp) (buf : Buf) (size sizeMax : Nat) (b : Buf) (n : Nat),
      app.kind ∈ m_vecHavocOperationsConstSize →
      app.kind ≠ CppOpKind.removeRandomBlock →
      applyCpp app buf size sizeMax = (b, some n) → n = size) ∧
    (∀ (app : CppApp) (buf : Buf) (size sizeMax : Nat) (b : Buf) (n : Nat),
      cppDrawsOK app size sizeMax → app.kind = CppOpKind.removeRandomBlock →
      applyCpp app buf size sizeMax = (b, some n) → n < size) ∧
    (∀ (app : HHApp) (buf : Buf) (cap s : Nat),
      s ≤ cap → hhDrawsOK app cap s →
      ((kindOfHH app).IsConstant = true → (applyHH app buf s).2 = s) ∧
      ((kindOfHH app).IsReducing = true → (applyHH app buf s).2 < s) ∧
      ((kindOfHH app).IsIncreasing = true →
        s < (applyHH app buf s).2 ∧ (applyHH app buf s).2 ≤ cap)) := by
  refine ⟨?_, ?_, ?_, ?_⟩
  · intro app buf size sizeMax b n hsz hdraw hmem heq
    cases app with
    | randomBlockInsert len pos cloneCoin cloneIdx repeatCoin byteIdx randByte =>
      simp only [cppDrawsOK] at hdraw
      simp only [applyCpp] at heq
      rw [if_neg (by omega)] at heq
      simp only [Prod.mk.injEq, Option.some.injEq] at heq
      omega
    | flipBit idx bit => exact absurd hmem (by simp [CppApp.kind, m_vecHavocOperationsSizeIncrease])
    | interestingValue w idxI pos => exact absurd hmem (by simp [CppApp.kind, m_vecHavocOperationsSizeIncrease])
    | arithmeticAdd w delta swap pos => exact absurd hmem (by simp [CppApp.kind, m_vecHavocOperationsSizeIncrease])
    | arithmeticSub w delta swap pos => exact absurd hmem (by simp [CppApp.kind, m_vecHavocOperationsSizeIncrease])
    | randomByteReplace idx v => exact absurd hmem (by simp [CppApp.kind, m_vecHavocOperationsSizeIncrease])
    | removeRandomBlock del idx => exact absurd hmem (by simp [CppApp.kind, m_vecHavocOperationsSizeIncrease])
    | randomChunkOverwrite len dst cloneCoin src coin2 byteIdx randByte =>
      exact absurd hmem (by simp [CppApp.kind, m_vecHavocOperationsSizeIncrease])
  · intro app buf size sizeMax b n hmem hne heq
    cases app with
    | flipBit idx bit =>
      simp only [applyCpp] at heq
      split at heq
      · simp at heq
      · simp only [Prod.mk.injEq, Option.some.injEq] at heq
        omega
    | interestingValue w idxI pos =>
      simp only [applyCpp] at heq
      split at heq
      · simp at heq
      · simp only [Prod.mk.injEq, Option.some.injEq] at heq
        omega
    | arithmeticAdd w delta swap pos =>
      simp only [applyCpp] at heq
      split at heq
      · simp at heq
      · simp only [Prod.mk.injEq, Option.some.injEq] at heq
        omega
    | arithmeticSub w delta swap pos =>
      simp only [applyCpp] at heq
      split at heq
      · simp at heq
      · simp only [Prod.mk.injEq, Option.some.injEq] at heq
        omega
    | randomByteReplace idx v =>
      simp only [applyCpp] at heq
      split at heq
      · simp at heq
      · simp only [Prod.mk.injEq, Option.some.injEq] at heq
        omega
    | removeRandomBlock del idx => exact absurd rfl hne
    | randomBlockInsert len pos cloneCoin cloneIdx repeatCoin byteIdx randByte =>
      exact absurd hmem (by simp [CppApp.kind, m_vecHavocOperationsConstSize])
    | randomChunkOverwrite len dst cloneCoin src coin2 byteIdx randByte =>
      simp only [applyCpp] at heq
      split at heq
      · simp at heq
      · simp only [Prod.mk.injEq, Option.some.injEq] at heq
        omega
  · intro app buf size sizeMax b n hdraw hk heq
    cases app with
    | removeRandomBlock del idx =>
      simp only [cppDrawsOK] at hdraw
      simp only [applyCpp] at heq
      rw [if_neg (by omega)] at heq
      simp only [Prod.mk.injEq, Option.some.injEq] at heq
      omega
    | flipBit idx bit => simp [CppApp.kind] at hk
    | interestingValue w idxI pos => simp [CppApp.kind] at hk
    | arithmeticAdd w delta swap pos => simp [CppApp.kind] at hk
    | arithmeticSub w delta swap pos => simp [CppApp.kind] at hk
    | randomByteReplace idx v => simp [CppApp.kind] at hk
    | randomBlockInsert len pos cloneCoin cloneIdx repeatCoin byteIdx randByte =>
      simp [CppApp.kind] at hk
    | randomChunkOverwrite len dst cloneCoin src coin2 byteIdx randByte =>
      simp [CppApp.kind] at hk
  · intro app buf cap s hsz hdraw
    cases app with
    | flipBit idx bit =>
      exact ⟨fun _ => rfl, by simp [kindOfHH, HHMut.IsReducing], by simp [kindOfHH, HHMut.IsIncreasing]⟩
    | interestingValue w idxI pos =>
      exact ⟨fun _ => rfl, by simp [kindOfHH, HHMut.IsReducing], by simp [kindOfHH, HHMut.IsIncreasing]⟩
    | arithmetic isAdd len pos delta =>
      cases isAdd with
      | true =>
        exact ⟨fun _ => rfl, by simp [kindOfHH, HHMut.IsReducing], by simp [kindOfHH, HHMut.IsIncreasing]⟩
      | false =>
        exact ⟨fun _ => rfl, by simp [kindOfHH, HHMut.IsReducing], by simp [kindOfHH, HHMut.IsIncreasing]⟩
    | randomByteReplace idx v =>
      exact ⟨fun _ => rfl, by simp [kindOfHH, HHMut.IsReducing], by simp [kindOfHH, HHMut.IsIncreasing]⟩
    | removeRandomBlock start len =>
      simp only [hhDrawsOK] at hdraw
      refine ⟨by simp [kindOfHH, HHMut.IsConstant, HHMut.IsReducing], fun _ => ?_,
        by simp [kindOfHH, HHMut.IsIncreasing]⟩
      simp only [applyHH, hhRemoveRandomBlock]
      omega
    | randomBlockInsert len pos d =>
      simp only [hhDrawsOK] at hdraw
      refine ⟨by simp [kindOfHH, HHMut.IsConstant, HHMut.IsIncreasing],
        by simp [kindOfHH, HHMut.IsReducing], fun _ => ?_⟩
      simp only [applyHH, hhRandomBlockInsert]
      omega
    | randomChunkOverwrite len off d =>
      exact ⟨fun _ => rfl, by simp [kindOfHH, HHMut.IsReducing], by simp [kindOfHH, HHMut.IsIncreasing]⟩

/-- Witness for C4: the size-increase vector's `RandomBlockInsert` grows a
size-2 value to 3 within capacity 3, and `RemoveRandomBlock` shrinks a
size-2 value to 1. -/
theorem C4_category_fidelity_amended_witness : (2 < 3 ∧ 3 ≤ 3) ∧ 1 < 2 := by
  constructor
  · exact C4_category_fidelity_amended.1
      (CppApp.randomBlockInsert 1 0 0 0 0 0 0) bufTwo 2 3
      ((applyCpp (CppApp.randomBlockInsert 1 0 0 0 0 0 0) bufTwo 2 3).1) 3
      (by decide) (by decide) (by decide) rfl
  · exact C4_category_fidelity_amended.2.2.1
      (CppApp.removeRandomBlock 1 0) bufTwo 2 3
      ((applyCpp (CppApp.removeRandomBlock 1 0) bufTwo 2 3).1) 1
      (by decide) rfl rfl

/-- Every fixed-width operator checks its size precondition before its first
write: on failure (`none`) the returned buffer IS the input buffer. -/
theorem applyCpp_failed_buf (app : CppApp) (buf : Buf) (size sizeMax : Nat)
    (h : (applyCpp app buf size sizeMax).2 = none) :
    (applyCpp app buf size sizeMax).1 = buf := by
  cases app <;> simp only [applyCpp] at h ⊢ <;> split at h <;> first
    | rfl
    | simp_all

/-- C10: a fixed-width operator that signals `MUTATION_FAILED` has written
no byte of the buffer, and the havoc loop then restores the previous value
size and retries, so a failed iteration leaves the buffer/size pair exactly
as it was: the next loop state carries the same `buf` and the same `s`
(only the failure counter and the attempt count advance). -/
theorem C10_failure_leaves_state :
    (∀ (app : CppApp) (buf : Buf) (size sizeMax : Nat),
      (applyCpp app buf size sizeMax).2 = none →
      ∀ j, (applyCpp app buf size sizeMax).1 j = buf j) ∧
    (∀ (sizeMax : Nat) (p : CppApp) (ps : List CppApp) (buf : Buf) (s n e a : Nat),
      (applyCpp p buf s sizeMax).2 = none → e + 1 < MAX_FAILED_MUTATIONS →
      cppHavocLoop sizeMax (p :: ps) buf s (n + 1) e a =
        cppHavocLoop sizeMax ps buf s (n + 1) (e + 1) (a + 1)) := by
  constructor
  · intro app buf size sizeMax h j
    rw [applyCpp_failed_buf app buf size sizeMax h]
  · intro sizeMax p ps buf s n e a h hlt
    simp only [cppHavocLoop, h]
    rw [if_neg (by omega), applyCpp_failed_buf p buf s sizeMax h]

/-- Witness for C10: `FlipBit` on an empty value fails and the loop state
only advances its failure counter and attempt count. -/
theorem C10_failure_leaves_state_witness :
    cppHavocLoop 5 [CppApp.flipBit 0 0] bufZero 0 1 0 0 =
      cppHavocLoop 5 [] bufZero 0 1 1 1 :=
  C10_failure_leaves_state.2 5 (CppApp.flipBit 0 0) [] bufZero 0 0 0 0 rfl (by decide)

/-- Attempt-count bound of the havoc loop: starting from failure count
`e ≤ 127`, a run that completes (normally or fatally) with attempt count
`a2` satisfies `a2 + e ≤ a + 128 * n`, except that a run with no iterations
left returns immediately with `a2 = a`. -/
theorem cppHavocLoop_attempts (sizeMax : Nat) (plans : List CppApp) :
    ∀ (buf : Buf) (s n e a : Nat) (b : Buf) (s2 a2 : Nat),
      e ≤ 127 →
      (cppHavocLoop sizeMax plans buf s n e a = CppOutcome.done b s2 a2 ∨
       cppHavocLoop sizeMax plans buf s n e a = CppOutcome.hung b s2 a2) →
      (n = 0 ∧ a2 = a) ∨ a2 + e ≤ a + 128 * n := by
  have hM : MAX_FAILED_MUTATIONS = 128 := rfl
  induction plans with
  | nil =>
    intro buf s n e a b s2 a2 he hres
    cases n with
    | zero =>
      obtain hres | hres := hres <;> cases hres
      · exact Or.inl ⟨rfl, rfl⟩
    | succ n =>
      obtain hres | hres := hres <;> exact nomatch hres
  | cons p ps ih =>
    intro buf s n e a b s2 a2 he hres
    cases n with
    | zero =>
      obtain hres | hres := hres <;> cases hres
      · exact Or.inl ⟨rfl, rfl⟩
    | succ n =>
      simp only [cppHavocLoop] at hres
      obtain hres | hres := hres
      · split at hres
        · split at hres
          · cases hres
          · have hrec := ih _ _ _ _ _ _ _ _ (by omega) (Or.inl hres)
            right
            omega
        · have hrec := ih _ _ _ _ _ _ _ _ (by omega) (Or.inl hres)
          right
          omega
      · split at hres
        · split at hres
          · cases hres
            right
            omega
          · have hrec := ih _ _ _ _ _ _ _ _ (by omega) (Or.inr hres)
            right
            omega
        · have hrec := ih _ _ _ _ _ _ _ _ (by omega) (Or.inr hres)
          right
          omega

/-- The 131-iteration plan of the C5 counterexample: after 127 consecutive
failures a success resets the failure counter, so a second batch of
failures is not cumulated. -/
def plansC5 : List CppApp :=
  List.replicate 127 (CppApp.removeRandomBlock 1 0) ++ [CppApp.flipBit 0 0] ++
    List.replicate 2 (CppApp.removeRandomBlock 1 0) ++ [CppApp.flipBit 0 0]

/-- C5 counterexample: with `N = 2` the run `plansC5` (127 failures, one
success, 2 failures, one success on a size-1 value in a capacity-2 buffer)
completes normally after 131 operator attempts, exceeding the claimed bound
`N + 128 = 130`: the consecutive-failure counter resets on success, so
failures accumulate per counted iteration, not per run. -/
theorem C5_attempts_counterexample :
    (cppHavoc plansC5 bufZero 1 2 2).isDone = true ∧
    (cppHavoc plansC5 bufZero 1 2 2).attemptCount = 131 ∧
    ¬(131 ≤ 2 + 128) := by
  decide

/-- C5 amended: a failed operator application is not counted toward `N` and
increments the consecutive-failure counter (conjunct 2); a success resets
the counter (conjunct 1); the loop raises the fatal error when 128
consecutive failures are reached (conjunct 3); consequently the total number
of operator attempts in any run, successful plus failed, is at most
`128 * N` (conjunct 4; each of the `N` counted iterations can absorb up to
127 uncounted failures, so `N + 128` holds only for runs whose failures
never straddle a success). -/
theorem C5_havoc_failure_accounting_amended :
    (∀ (sizeMax : Nat) (p : CppApp) (ps : List CppApp) (buf : Buf) (s n e a s2 : Nat),
      (applyCpp p buf s sizeMax).2 = some s2 →
      cppHavocLoop sizeMax (p :: ps) buf s (n + 1) e a =
        cppHavocLoop sizeMax ps (applyCpp p buf s sizeMax).1 s2 n 0 (a + 1)) ∧
    (∀ (sizeMax : Nat) (p : CppApp) (ps : List CppApp) (buf : Buf) (s n e a : Nat),
      (applyCpp p buf s sizeMax).2 = none → e + 1 < MAX_FAILED_MUTATIONS →
      cppHavocLoop sizeMax (p :: ps) buf s (n + 1) e a =
        cppHavocLoop sizeMax ps (applyCpp p buf s sizeMax).1 s (n + 1) (e + 1) (a + 1)) ∧
    (∀ (sizeMax : Nat) (p : CppApp) (ps : List CppApp) (buf : Buf) (s n a : Nat),
      (applyCpp p buf s sizeMax).2 = none →
      cppHavocLoop sizeMax (p :: ps) buf s (n + 1) (MAX_FAILED_MUTATIONS - 1) a =
        CppOutcome.hung (applyCpp p buf s sizeMax).1 s (a + 1)) ∧
    (∀ (plans : List CppApp) (buf : Buf) (size sizeMax N : Nat) (b : Buf) (s a : Nat),
      (cppHavoc plans buf size sizeMax N = CppOutcome.done b s a ∨
       cppHavoc plans buf size sizeMax N = CppOutcome.hung b s a) →
      a ≤ 128 * N) := by
  have hM : MAX_FAILED_MUTATIONS = 128 := rfl
  refine ⟨?_, ?_, ?_, ?_⟩
  · intro sizeMax p ps buf s n e a s2 h
    simp only [cppHavocLoop, h]
  · intro sizeMax p ps buf s n e a h hlt
    simp only [cppHavocLoop, h]
    rw [if_neg (by omega)]
  · intro sizeMax p ps buf s n a h
    simp only [cppHavocLoop, h]
    rw [if_pos (by omega)]
  · intro plans buf size sizeMax N b s a hres
    unfold cppHavoc at hres
    split at hres
    · obtain hres | hres := hres <;> exact nomatch hres
    · have := cppHavocLoop_attempts sizeMax plans buf size N 0 0 b s a (by omega) hres
      omega

/-- Witness for C5: a one-iteration run with a succeeding `FlipBit` makes
exactly 1 attempt, within the `128 * N` bound. -/
theorem C5_havoc_failure_accounting_amended_witness : 1 ≤ 128 * 1 :=
  C5_havoc_failure_accounting_amended.2.2.2 [CppApp.flipBit 0 0] bufZero 1 2 1
    ((applyCpp (CppApp.flipBit 0 0) bufZero 1 2).1) 1 1 (Or.inl rfl)

/-- C6 counterexample: the generic header `Havoc` performs NO parameter
validation: called with value size 5 on a capacity-3 buffer it clamps the
size to 3, runs its iterations (here one `FlipBit`), mutates the buffer
(byte 0 becomes 1) and completes normally -- no precondition-violation
error is raised and the buffer is modified. -/
theorem C6_generic_havoc_counterexample :
    5 > 3 ∧
    (hhHavoc [⟨0, HHApp.flipBit 0 0⟩] bufZero 3 5 1).isDone = true ∧
    (hhHavoc [⟨0, HHApp.flipBit 0 0⟩] bufZero 3 5 1).outSize = 3 ∧
    (hhHavoc [⟨0, HHApp.flipBit 0 0⟩] bufZero 3 5 1).outBuf 0 = 1 ∧
    bufZero 0 = 0 := by
  decide

/-- C6 amended: `CAFLMutationFunctions::Havoc` called with
`size > sizeMax`, or with `size == 0 && sizeMax == 0`, raises the
precondition-violation error (`std::invalid_argument`) immediately: before
any mutation operator is applied, without modifying the buffer, and without
entering the loop.  The generic header `Havoc` has no such check: it clamps
the size to the capacity and proceeds to mutate. -/
theorem C6_invalid_args_amended (plans : List CppApp) (buf : Buf)
    (size sizeMax N : Nat)
    (h : size > sizeMax ∨ (size = 0 ∧ sizeMax = 0)) :
    cppHavoc plans buf size sizeMax N = CppOutcome.invalid buf size := by
  unfold cppHavoc
  rw [if_pos h]

/-- Witness for C6: the `capacity == 0 == size` call fails fast. -/
theorem C6_invalid_args_amended_witness :
    cppHavoc [] bufZero 0 0 3 = CppOutcome.invalid bufZero 0 :=
  C6_invalid_args_amended [] bufZero 0 0 3 (Or.inr ⟨rfl, rfl⟩)

end AFLMutation
